import Mathlib

/-!
Verification of the page-replacement simulation core found in src/App.jsx.

The trace engine is a family of pure functions
(requests, cacheSize) -> list of simulation steps, one builder per policy
(FIFO, LRU, OPT).  Each builder is embedded here as a per-request step
function threaded through a generic driver (simGo), mirroring the source
loops.  The playback controller (React component state plus its handlers)
is embedded as a record ControllerState with one function per handler.

Pages are an arbitrary type with decidable equality (the source uses the
digit strings "0".."9"; equality is by value).
-/

namespace PageSim

/-- One entry of the trace, mirroring the step objects pushed by the source:
objects of shape (cache, current, hit, evicted), where cache is the snapshot
of the resident list after processing the request. -/
structure SimulationStep (α : Type) where
  cache : List α
  current : α
  hit : Bool
  evicted : Option α
deriving DecidableEq, Repr

/-- The three replacement policies offered by the simulator. -/
inductive Policy
  | FIFO
  | LRU
  | OPT
deriving DecidableEq, Repr

variable {α : Type} [DecidableEq α] {σ : Type}

/-- Generic driver for the per-request loops of the builders: runs the step
function over the remaining requests, threading the state and the running
request index, and collects the produced steps in order. -/
def simGo (step : Nat → σ → α → σ × SimulationStep α) :
    List α → Nat → σ → List (SimulationStep α)
  | [], _, _ => []
  | page :: rest, n, st =>
    (step n st page).2 :: simGo step rest (n + 1) (step n st page).1

/-- Iterate the step function i times along the remaining requests,
returning the state reached (the state before processing request n + i). -/
def simIter (step : Nat → σ → α → σ × SimulationStep α) :
    List α → Nat → σ → Nat → σ
  | _, _, st, 0 => st
  | [], _, st, _ + 1 => st
  | page :: rest, n, st, i + 1 => simIter step rest (n + 1) (step n st page).1 i

/-- One FIFO request, from the body of the loop in buildFIFOSteps.  The
state is the pair (cache, cacheSet): the resident queue in insertion order
and the membership structure (a JS Set, holding the same pages).  A hit
changes nothing; a miss at capacity shifts the queue head out of both
structures; every miss pushes the page at the tail of both. -/
def fifoStepF (cacheSize : Nat) (st : List α × List α) (page : α) :
    (List α × List α) × SimulationStep α :=
  if page ∈ st.2 then
    (st, ⟨st.1, page, true, none⟩)
  else if cacheSize ≤ st.1.length then
    match st.1 with
    | [] => (([page], st.2 ++ [page]), ⟨[page], page, false, none⟩)
    | e :: t =>
      ((t ++ [page], (st.2.erase e) ++ [page]), ⟨t ++ [page], page, false, some e⟩)
  else
    ((st.1 ++ [page], st.2 ++ [page]), ⟨st.1 ++ [page], page, false, none⟩)

/-- buildFIFOSteps from the source: fold fifoStepF over the requests,
starting from the empty cache and empty set. -/
def buildFIFOSteps (requests : List α) (cacheSize : Nat) : List (SimulationStep α) :=
  simGo (fun _ st page => fifoStepF cacheSize st page) requests 0 ([], [])

/-- The FIFO state (cache, cacheSet) reached before processing request i. -/
def fifoStateAt (requests : List α) (cacheSize : Nat) (i : Nat) : List α × List α :=
  simIter (fun _ st page => fifoStepF cacheSize st page) requests 0 ([], []) i

/-- The comparison used < over values of the JS Map lookups: a comparison
involving undefined is false, otherwise numeric. -/
def jsLtOpt : Option Nat → Option Nat → Bool
  | some a, some b => decide (a < b)
  | _, _ => false

/-- The LRU eviction scan from buildLRUSteps: starting from lruPage :=
cache[0] and oldest := lastUsed.get(cache[0]), walk the cache in residency
order and move to any page with a strictly smaller last-used value. -/
def lruScan (lastUsed : α → Option Nat) (cache : List α) (c0 : α) : α :=
  (cache.foldl
    (fun acc p => if jsLtOpt (lastUsed p) acc.2 then (p, lastUsed p) else acc)
    (c0, lastUsed c0)).1

/-- One LRU request, from the body of the loop in buildLRUSteps.  The state
is (cache, lastUsed); the source updates lastUsed.set(page, i) before the
eviction scan, so the scan runs over the updated map.  The branch for an
empty cache mirrors the JS corner where cache[0] is undefined, the scan body
never runs, indexOf returns -1 and splice(-1,1) on an empty array is a
no-op. -/
def lruStepF (cacheSize : Nat) (i : Nat) (st : List α × (α → Option Nat)) (page : α) :
    (List α × (α → Option Nat)) × SimulationStep α :=
  let lastUsed := fun p => if p = page then some i else st.2 p
  if page ∈ st.1 then
    ((st.1, lastUsed), ⟨st.1, page, true, none⟩)
  else if cacheSize ≤ st.1.length then
    match st.1 with
    | [] => (([page], lastUsed), ⟨[page], page, false, none⟩)
    | c0 :: _ =>
      ((st.1.erase (lruScan lastUsed st.1 c0) ++ [page],
        lastUsed),
       ⟨st.1.erase (lruScan lastUsed st.1 c0) ++ [page], page, false,
        some (lruScan lastUsed st.1 c0)⟩)
  else
    ((st.1 ++ [page], lastUsed), ⟨st.1 ++ [page], page, false, none⟩)

/-- buildLRUSteps from the source: fold lruStepF over the requests,
starting from the empty cache and the empty map. -/
def buildLRUSteps (requests : List α) (cacheSize : Nat) : List (SimulationStep α) :=
  simGo (lruStepF cacheSize) requests 0 ([], fun _ => none)

/-- The LRU state (cache, lastUsed) reached before processing request i. -/
def lruStateAt (requests : List α) (cacheSize : Nat) (i : Nat) :
    List α × (α → Option Nat) :=
  simIter (lruStepF cacheSize) requests 0 ([], fun _ => none) i

/-- requests.slice(i+1).indexOf(p) from the source: the index, relative to
position i+1, of the next occurrence of p strictly after position i, or
none when p does not occur again. -/
def nextOcc (requests : List α) (i : Nat) (p : α) : Option Nat :=
  (requests.drop (i + 1)).findIdx? (fun q => decide (q = p))

/-- The absolute next-use index from buildOPTSteps: nextIndex === -1 ?
Infinity : nextIndex + i + 1, with Infinity rendered as the top element. -/
def nextUseIdx (requests : List α) (i : Nat) (p : α) : WithTop Nat :=
  match nextOcc requests i p with
  | none => ⊤
  | some k => ((k + i + 1 : Nat) : WithTop Nat)

/-- The loop body of the OPT eviction scan: move to page p whenever its
absolute next-use index is strictly greater than the running farthest
index. -/
def optUpd (requests : List α) (i : Nat) (acc : Option α × WithBot (WithTop Nat))
    (p : α) : Option α × WithBot (WithTop Nat) :=
  if acc.2 < ((nextUseIdx requests i p : WithTop Nat) : WithBot (WithTop Nat)) then
    (some p, ((nextUseIdx requests i p : WithTop Nat) : WithBot (WithTop Nat)))
  else acc

/-- The OPT eviction scan from buildOPTSteps: farthestPage := null,
farthestIndex := -1 (rendered as the bottom element below every index and
below Infinity), then walk the cache in residency order applying the loop
body. -/
def optScan (requests : List α) (i : Nat) (cache : List α) : Option α :=
  (cache.foldl (optUpd requests i)
    ((none : Option α), (⊥ : WithBot (WithTop Nat)))).1

/-- One OPT request, from the body of the loop in buildOPTSteps.  The state
is the resident list only.  The none branch of the scan only arises for an
empty cache, where the JS indexOf(null) returns -1 and splice(-1,1) on an
empty array is a no-op. -/
def optStepF (requests : List α) (cacheSize : Nat) (i : Nat) (cache : List α)
    (page : α) : List α × SimulationStep α :=
  if page ∈ cache then
    (cache, ⟨cache, page, true, none⟩)
  else if cacheSize ≤ cache.length then
    match optScan requests i cache with
    | none => (cache ++ [page], ⟨cache ++ [page], page, false, none⟩)
    | some v =>
      ((cache.erase v) ++ [page], ⟨(cache.erase v) ++ [page], page, false, some v⟩)
  else
    (cache ++ [page], ⟨cache ++ [page], page, false, none⟩)

/-- buildOPTSteps from the source (the full-scan variant): fold optStepF
over the requests, starting from the empty cache. -/
def buildOPTSteps (requests : List α) (cacheSize : Nat) : List (SimulationStep α) :=
  simGo (optStepF requests cacheSize) requests 0 []

/-- The OPT resident list reached before processing request i. -/
def optStateAt (requests : List α) (cacheSize : Nat) (i : Nat) : List α :=
  simIter (optStepF requests cacheSize) requests 0 [] i

/-- The eviction scan of the second OPT draft: it works on the relative
next-use index (nextUse = requests.slice(i+1).indexOf(p)), starts from
farthestPage := the empty sentinel and farthestIndex := -1, and breaks out
of the loop at the first resident page with no future use. -/
def optScanSCGo (requests : List α) (i : Nat) :
    List α → Option α → Int → Option α
  | [], fp, _ => fp
  | p :: rest, fp, fi =>
    match nextOcc requests i p with
    | none => some p
    | some k =>
      if fi < (k : Int) then optScanSCGo requests i rest (some p) (k : Int)
      else optScanSCGo requests i rest fp fi

/-- Entry point of the short-circuit scan, with the initial sentinel page
and farthestIndex := -1. -/
def optScanSC (requests : List α) (i : Nat) (cache : List α) : Option α :=
  optScanSCGo requests i cache none (-1)

/-- One OPT request in the short-circuit draft; identical to optStepF
except for the scan used to pick the victim. -/
def optStepSCF (requests : List α) (cacheSize : Nat) (i : Nat) (cache : List α)
    (page : α) : List α × SimulationStep α :=
  if page ∈ cache then
    (cache, ⟨cache, page, true, none⟩)
  else if cacheSize ≤ cache.length then
    match optScanSC requests i cache with
    | none => (cache ++ [page], ⟨cache ++ [page], page, false, none⟩)
    | some v =>
      ((cache.erase v) ++ [page], ⟨(cache.erase v) ++ [page], page, false, some v⟩)
  else
    (cache ++ [page], ⟨cache ++ [page], page, false, none⟩)

/-- buildOPTSteps as written in the short-circuit draft of the source. -/
def buildOPTStepsSC (requests : List α) (cacheSize : Nat) : List (SimulationStep α) :=
  simGo (optStepSCF requests cacheSize) requests 0 []

/-- Dispatch on the selected algorithm, as in the effect that rebuilds the
steps whenever the inputs change. -/
def buildSteps (policy : Policy) (requests : List α) (cacheSize : Nat) :
    List (SimulationStep α) :=
  match policy with
  | Policy.FIFO => buildFIFOSteps requests cacheSize
  | Policy.LRU => buildLRUSteps requests cacheSize
  | Policy.OPT => buildOPTSteps requests cacheSize

/-- The resident list held before processing request i, per policy. -/
def cacheAt (policy : Policy) (requests : List α) (cacheSize : Nat) (i : Nat) :
    List α :=
  match policy with
  | Policy.FIFO => (fifoStateAt requests cacheSize i).1
  | Policy.LRU => (lruStateAt requests cacheSize i).1
  | Policy.OPT => optStateAt requests cacheSize i

/-- The index of the most recent request of p strictly before position i,
if any: the value the source Map lastUsed holds for p when position i is
reached. -/
def lastUseBefore (requests : List α) : Nat → α → Option Nat
  | 0, _ => none
  | i + 1, p => if requests[i]? = some p then some i else lastUseBefore requests i p

/-- The playback-relevant component state of the simulator: the generated
reference string, the computed trace, the cursor, and the playing flag.
The cursor is an integer, as in the source. -/
structure ControllerState (α : Type) where
  requests : List α
  steps : List (SimulationStep α)
  currentStep : Int
  isPlaying : Bool
deriving DecidableEq, Repr

/-- The Step button handler: setCurrentStep(s => Math.min(s + 1,
steps.length - 1)). -/
def onStep (s : ControllerState α) : ControllerState α :=
  { s with currentStep := min (s.currentStep + 1) ((s.steps.length : Int) - 1) }

/-- The Reset button handler: setCurrentStep(0). -/
def onReset (s : ControllerState α) : ControllerState α :=
  { s with currentStep := 0 }

/-- The Play button handler: setIsPlaying(true). -/
def onPlay (s : ControllerState α) : ControllerState α :=
  { s with isPlaying := true }

/-- The Pause button handler: setIsPlaying(false). -/
def onPause (s : ControllerState α) : ControllerState α :=
  { s with isPlaying := false }

/-- One firing of the auto-advance interval: advance the cursor if it is
before the last index, otherwise clear the interval and stop playing. -/
def tickAdvance (s : ControllerState α) : ControllerState α :=
  if s.currentStep < (s.steps.length : Int) - 1 then
    { s with currentStep := s.currentStep + 1 }
  else
    { s with isPlaying := false }

/-! ## Generic lemmas about the driver -/

omit [DecidableEq α] in
theorem simGo_length (step : Nat → σ → α → σ × SimulationStep α) :
    ∀ (rem : List α) (n : Nat) (st : σ), (simGo step rem n st).length = rem.length := by
  intro rem
  induction rem with
  | nil => intro n st; rfl
  | cons page rest ih => intro n st; simp [simGo, ih]

omit [DecidableEq α] in
theorem simGo_getElem (step : Nat → σ → α → σ × SimulationStep α) :
    ∀ (rem : List α) (i n : Nat) (st : σ),
    (simGo step rem n st)[i]? =
      Option.map (fun page => (step (n + i) (simIter step rem n st i) page).2) rem[i]? := by
  intro rem
  induction rem with
  | nil => intro i n st; simp [simGo]
  | cons page rest ih =>
    intro i n st
    cases i with
    | zero => simp [simGo, simIter]
    | succ j =>
      have harith : n + (j + 1) = (n + 1) + j := by omega
      simp only [simGo, simIter, List.getElem?_cons_succ, harith]
      exact ih j (n + 1) (step n st page).1

omit [DecidableEq α] in
theorem simIter_skip (step : Nat → σ → α → σ × SimulationStep α)
    (requests : List α) (P : Nat → σ → Prop)
    (hskip : ∀ n st, requests[n]? = none → P n st → P (n + 1) st) :
    ∀ (k n : Nat) (st : σ), requests.length ≤ n → P n st → P (n + k) st := by
  intro k
  induction k with
  | zero => intro n st _ h; simpa using h
  | succ j ih =>
    intro n st hn h
    have h1 : P (n + j) st := ih n st hn h
    have h2 : requests[n + j]? = none := by
      apply List.getElem?_eq_none
      omega
    have := hskip (n + j) st h2 h1
    have harith : n + (j + 1) = (n + j) + 1 := by omega
    rw [harith]
    exact this

omit [DecidableEq α] in
theorem simIter_inv (step : Nat → σ → α → σ × SimulationStep α)
    (requests : List α) (P : Nat → σ → Prop)
    (hstep : ∀ n st page, requests[n]? = some page → P n st → P (n + 1) (step n st page).1)
    (hskip : ∀ n st, requests[n]? = none → P n st → P (n + 1) st) :
    ∀ (i n : Nat) (st : σ), P n st → P (n + i) (simIter step (requests.drop n) n st i) := by
  intro i
  induction i with
  | zero => intro n st h; simpa [simIter] using h
  | succ j ih =>
    intro n st h
    cases hdrop : requests.drop n with
    | nil =>
      have hlen : requests.length ≤ n := by
        have := congrArg List.length hdrop
        simp at this
        omega
      simpa [simIter] using simIter_skip step requests P hskip (j + 1) n st hlen h
    | cons page rest =>
      have hpage : requests[n]? = some page := by
        have h0 : (requests.drop n)[0]? = requests[n]? := by
          rw [List.getElem?_drop]
          simp
        rw [hdrop] at h0
        simpa using h0.symm
      have hrest : rest = requests.drop (n + 1) := by
        have ht : (requests.drop n).tail = requests.drop (n + 1) := by
          rw [List.tail_drop]
        rw [hdrop] at ht
        simpa using ht
      have harith : n + (j + 1) = (n + 1) + j := by omega
      rw [harith]
      simp only [simIter]
      rw [hrest]
      exact ih (n + 1) (step n st page).1 (hstep n st page hpage h)

omit [DecidableEq α] in
theorem simIter_succ (step : Nat → σ → α → σ × SimulationStep α) :
    ∀ (i : Nat) (rem : List α) (n : Nat) (st : σ),
    simIter step rem n st (i + 1) =
      match rem[i]? with
      | none => simIter step rem n st i
      | some page => (step (n + i) (simIter step rem n st i) page).1 := by
  intro i
  induction i with
  | zero =>
    intro rem n st
    cases rem with
    | nil => simp [simIter]
    | cons page rest => simp [simIter]
  | succ j ih =>
    intro rem n st
    cases rem with
    | nil => simp [simIter]
    | cons page rest =>
      have harith : n + (j + 1) = (n + 1) + j := by omega
      simp only [simIter, List.getElem?_cons_succ, harith]
      exact ih rest (n + 1) (step n st page).1

/-! ## The eviction scans: first-wins selection lemmas -/

omit [DecidableEq α] in
theorem lruScan_foldl_mem (f : α → Option Nat) (S : List α) :
    ∀ (L : List α) (b : α) (k : Option Nat), b ∈ S → (∀ p ∈ L, p ∈ S) →
    (L.foldl (fun acc p => if jsLtOpt (f p) acc.2 then (p, f p) else acc) (b, k)).1 ∈ S := by
  intro L
  induction L with
  | nil => intro b k hb _; simpa using hb
  | cons p r ih =>
    intro b k hb hL
    simp only [List.foldl_cons]
    by_cases h : jsLtOpt (f p) k = true
    · rw [if_pos h]
      exact ih p (f p) (hL p (by simp)) (fun q hq => hL q (by simp [hq]))
    · rw [if_neg h]
      exact ih b k hb (fun q hq => hL q (by simp [hq]))

omit [DecidableEq α] in
theorem lruScan_mem (f : α → Option Nat) (cache : List α) (c0 : α) (h0 : c0 ∈ cache) :
    lruScan f cache c0 ∈ cache :=
  lruScan_foldl_mem f cache cache c0 (f c0) h0 (fun _ hp => hp)

omit [DecidableEq α] in
theorem lruScan_aux (f : α → Option Nat) :
    ∀ (L : List α) (b : α) (kb : Nat), f b = some kb →
    (∀ p ∈ L, (f p).isSome = true) →
    ∃ v kv,
      (L.foldl (fun acc p => if jsLtOpt (f p) acc.2 then (p, f p) else acc) (b, f b)) =
        (v, some kv) ∧
      f v = some kv ∧
      ((v = b ∧ kv = kb ∧ ∀ p ∈ L, ∀ n, f p = some n → kb ≤ n) ∨
       (∃ pre post, L = pre ++ v :: post ∧ kv < kb ∧
         (∀ p ∈ pre, ∀ n, f p = some n → kv < n) ∧
         (∀ p ∈ post, ∀ n, f p = some n → kv ≤ n))) := by
  intro L
  induction L with
  | nil =>
    intro b kb hfb _
    refine ⟨b, kb, by simp [hfb], hfb, Or.inl ⟨rfl, rfl, by simp⟩⟩
  | cons p r ih =>
    intro b kb hfb hall
    obtain ⟨kp, hkp⟩ := Option.isSome_iff_exists.mp (hall p (by simp))
    simp only [List.foldl_cons, hfb, hkp, jsLtOpt]
    by_cases hlt : kp < kb
    · rw [if_pos (by simpa using hlt)]
      obtain ⟨v, kv, hfold, hfv, hcases⟩ :=
        ih p kp hkp (fun q hq => hall q (by simp [hq]))
      rw [hkp] at hfold
      refine ⟨v, kv, hfold, hfv, Or.inr ?_⟩
      rcases hcases with ⟨hvb, hkv, hpost⟩ | ⟨pre, post, hdec, hkv, hpre, hpost⟩
      · subst hvb; subst hkv
        exact ⟨[], r, by simp, hlt, by simp, hpost⟩
      · refine ⟨p :: pre, post, by simp [hdec], lt_trans hkv hlt, ?_, hpost⟩
        intro q hq n hn
        rcases List.mem_cons.mp hq with h | h
        · subst h; rw [hkp] at hn; injection hn with hn; omega
        · exact hpre q h n hn
    · rw [if_neg (by simpa using hlt)]
      rw [show (b, some kb) = (b, f b) from by rw [hfb]]
      obtain ⟨v, kv, hfold, hfv, hcases⟩ :=
        ih b kb hfb (fun q hq => hall q (by simp [hq]))
      refine ⟨v, kv, hfold, hfv, ?_⟩
      rcases hcases with ⟨hvb, hkv, hpost⟩ | ⟨pre, post, hdec, hkv, hpre, hpost⟩
      · refine Or.inl ⟨hvb, hkv, ?_⟩
        intro q hq n hn
        rcases List.mem_cons.mp hq with h | h
        · subst h; rw [hkp] at hn; injection hn with hn; omega
        · exact hpost q h n hn
      · refine Or.inr ⟨p :: pre, post, by simp [hdec], hkv, ?_, hpost⟩
        intro q hq n hn
        rcases List.mem_cons.mp hq with h | h
        · subst h; rw [hkp] at hn; injection hn with hn; omega
        · exact hpre q h n hn

omit [DecidableEq α] in
theorem lruScan_spec (f : α → Option Nat) (c0 : α) (rest : List α)
    (hall : ∀ p ∈ c0 :: rest, (f p).isSome = true) :
    ∃ pre post kv, c0 :: rest = pre ++ (lruScan f (c0 :: rest) c0) :: post ∧
      f (lruScan f (c0 :: rest) c0) = some kv ∧
      (∀ p ∈ pre, ∀ n, f p = some n → kv < n) ∧
      (∀ p ∈ post, ∀ n, f p = some n → kv ≤ n) := by
  obtain ⟨k0, hk0⟩ := Option.isSome_iff_exists.mp (hall c0 (by simp))
  have hstep0 :
      (c0 :: rest).foldl (fun acc p => if jsLtOpt (f p) acc.2 then (p, f p) else acc)
        (c0, f c0) =
      rest.foldl (fun acc p => if jsLtOpt (f p) acc.2 then (p, f p) else acc)
        (c0, f c0) := by
    simp only [List.foldl_cons, hk0, jsLtOpt]
    rw [if_neg (by simp)]
  obtain ⟨v, kv, hfold, hfv, hcases⟩ :=
    lruScan_aux f rest c0 k0 hk0 (fun q hq => hall q (by simp [hq]))
  have hsel : lruScan f (c0 :: rest) c0 = v := by
    simp only [lruScan, hstep0, hfold]
  rcases hcases with ⟨hvb, hkv, hpost⟩ | ⟨pre, post, hdec, hkv, hpre, hpost⟩
  · refine ⟨[], rest, kv, by simp [hsel, hvb], by rw [hsel]; exact hfv, by simp, ?_⟩
    intro q hq n hn
    have := hpost q hq n hn
    omega
  · refine ⟨c0 :: pre, post, kv, by rw [hsel, hdec]; simp, by rw [hsel]; exact hfv, ?_, hpost⟩
    intro q hq n hn
    rcases List.mem_cons.mp hq with h | h
    · subst h; rw [hk0] at hn; injection hn with hn; omega
    · exact hpre q h n hn

theorem optScan_aux (requests : List α) (i : Nat) :
    ∀ (L : List α) (b : α),
    ∃ v,
      (L.foldl (optUpd requests i)
        ((some b : Option α),
         ((nextUseIdx requests i b : WithTop Nat) : WithBot (WithTop Nat)))) =
        ((some v : Option α),
         ((nextUseIdx requests i v : WithTop Nat) : WithBot (WithTop Nat))) ∧
      ((v = b ∧ ∀ p ∈ L, nextUseIdx requests i p ≤ nextUseIdx requests i b) ∨
       (∃ pre post, L = pre ++ v :: post ∧
         nextUseIdx requests i b < nextUseIdx requests i v ∧
         (∀ p ∈ pre, nextUseIdx requests i p < nextUseIdx requests i v) ∧
         (∀ p ∈ post, nextUseIdx requests i p ≤ nextUseIdx requests i v))) := by
  intro L
  induction L with
  | nil => intro b; exact ⟨b, rfl, Or.inl ⟨rfl, by simp⟩⟩
  | cons p r ih =>
    intro b
    simp only [List.foldl_cons]
    by_cases h : nextUseIdx requests i b < nextUseIdx requests i p
    · rw [show optUpd requests i (some b, _) p = (some p,
          ((nextUseIdx requests i p : WithTop Nat) : WithBot (WithTop Nat))) from by
        rw [optUpd, if_pos (WithBot.coe_lt_coe.mpr h)]]
      obtain ⟨v, hfold, hcases⟩ := ih p
      refine ⟨v, hfold, Or.inr ?_⟩
      rcases hcases with ⟨hvb, hle⟩ | ⟨pre, post, hdec, hlt, hpre, hpost⟩
      · subst hvb; exact ⟨[], r, by simp, h, by simp, hle⟩
      · refine ⟨p :: pre, post, by simp [hdec], lt_trans h hlt, ?_, hpost⟩
        intro q hq
        rcases List.mem_cons.mp hq with h1 | h1
        · subst h1; exact hlt
        · exact hpre q h1
    · rw [show optUpd requests i (some b,
          ((nextUseIdx requests i b : WithTop Nat) : WithBot (WithTop Nat))) p =
          (some b, ((nextUseIdx requests i b : WithTop Nat) : WithBot (WithTop Nat)))
          from by
        rw [optUpd, if_neg (by simpa [WithBot.coe_lt_coe] using h)]]
      obtain ⟨v, hfold, hcases⟩ := ih b
      refine ⟨v, hfold, ?_⟩
      have hpb : nextUseIdx requests i p ≤ nextUseIdx requests i b := not_lt.mp h
      rcases hcases with ⟨hvb, hle⟩ | ⟨pre, post, hdec, hlt, hpre, hpost⟩
      · refine Or.inl ⟨hvb, ?_⟩
        intro q hq
        rcases List.mem_cons.mp hq with h1 | h1
        · subst h1; exact hpb
        · exact hle q h1
      · refine Or.inr ⟨p :: pre, post, by simp [hdec], hlt, ?_, hpost⟩
        intro q hq
        rcases List.mem_cons.mp hq with h1 | h1
        · subst h1; exact lt_of_le_of_lt hpb hlt
        · exact hpre q h1

theorem optScan_spec (requests : List α) (i : Nat) (c0 : α) (rest : List α) :
    ∃ v pre post, optScan requests i (c0 :: rest) = some v ∧
      c0 :: rest = pre ++ v :: post ∧
      (∀ p ∈ pre, nextUseIdx requests i p < nextUseIdx requests i v) ∧
      (∀ p ∈ post, nextUseIdx requests i p ≤ nextUseIdx requests i v) := by
  obtain ⟨v, hfold, hcases⟩ := optScan_aux requests i rest c0
  have hscan : optScan requests i (c0 :: rest) = some v := by
    simp only [optScan, List.foldl_cons]
    rw [show optUpd requests i ((none : Option α), (⊥ : WithBot (WithTop Nat))) c0 =
        (some c0, ((nextUseIdx requests i c0 : WithTop Nat) : WithBot (WithTop Nat)))
        from by rw [optUpd, if_pos (WithBot.bot_lt_coe _)]]
    rw [hfold]
  rcases hcases with ⟨hvb, hle⟩ | ⟨pre, post, hdec, hbv, hpre, hpost⟩
  · exact ⟨v, [], rest, hscan, by simp [hvb], by simp, by subst hvb; exact hle⟩
  · refine ⟨v, c0 :: pre, post, hscan, by simp [hdec], ?_, hpost⟩
    intro q hq
    rcases List.mem_cons.mp hq with h1 | h1
    · subst h1; exact hbv
    · exact hpre q h1

theorem optScan_absorb (requests : List α) (i : Nat) :
    ∀ (L : List α) (fp : Option α),
    L.foldl (optUpd requests i) (fp, ((⊤ : WithTop Nat) : WithBot (WithTop Nat))) =
      (fp, ((⊤ : WithTop Nat) : WithBot (WithTop Nat))) := by
  intro L
  induction L with
  | nil => intro fp; rfl
  | cons p r ih =>
    intro fp
    simp only [List.foldl_cons]
    rw [show optUpd requests i (fp, ((⊤ : WithTop Nat) : WithBot (WithTop Nat))) p =
        (fp, ((⊤ : WithTop Nat) : WithBot (WithTop Nat))) from by
      rw [optUpd, if_neg (by rw [WithBot.coe_lt_coe]; exact not_top_lt)]]
    exact ih fp

theorem optScanSC_go_eq (requests : List α) (i : Nat) :
    ∀ (L : List α) (fp : α) (k : Nat),
    optScanSCGo requests i L (some fp) (k : Int) =
      (L.foldl (optUpd requests i)
        ((some fp : Option α),
         (((k + i + 1 : Nat) : WithTop Nat) : WithBot (WithTop Nat)))).1 := by
  intro L
  induction L with
  | nil => intro fp k; rfl
  | cons p r ih =>
    intro fp k
    cases hp : nextOcc requests i p with
    | none =>
      have hkey : nextUseIdx requests i p = ⊤ := by simp [nextUseIdx, hp]
      simp only [optScanSCGo, hp, List.foldl_cons]
      rw [show optUpd requests i
          (some fp, (((k + i + 1 : Nat) : WithTop Nat) : WithBot (WithTop Nat))) p =
          (some p, ((⊤ : WithTop Nat) : WithBot (WithTop Nat))) from by
        rw [optUpd, hkey, if_pos (by rw [WithBot.coe_lt_coe]; exact WithTop.coe_lt_top _)]]
      rw [optScan_absorb]
    | some m =>
      have hkey : nextUseIdx requests i p = ((m + i + 1 : Nat) : WithTop Nat) := by
        simp [nextUseIdx, hp]
      simp only [optScanSCGo, hp, List.foldl_cons]
      by_cases hkm : k < m
      · rw [if_pos (by exact_mod_cast hkm)]
        rw [show optUpd requests i
            (some fp, (((k + i + 1 : Nat) : WithTop Nat) : WithBot (WithTop Nat))) p =
            (some p, (((m + i + 1 : Nat) : WithTop Nat) : WithBot (WithTop Nat))) from by
          rw [optUpd, hkey, if_pos (by
            rw [WithBot.coe_lt_coe]
            exact_mod_cast (show k + i + 1 < m + i + 1 by omega))]]
        exact ih p m
      · rw [if_neg (by exact_mod_cast hkm)]
        rw [show optUpd requests i
            (some fp, (((k + i + 1 : Nat) : WithTop Nat) : WithBot (WithTop Nat))) p =
            (some fp, (((k + i + 1 : Nat) : WithTop Nat) : WithBot (WithTop Nat))) from by
          rw [optUpd, hkey, if_neg (by
            rw [WithBot.coe_lt_coe]
            exact_mod_cast (show ¬(k + i + 1 < m + i + 1) by omega))]]
        exact ih fp k

theorem optScanSC_eq (requests : List α) (i : Nat) (cache : List α) :
    optScanSC requests i cache = optScan requests i cache := by
  cases cache with
  | nil => rfl
  | cons c0 rest =>
    cases h0 : nextOcc requests i c0 with
    | none =>
      have hkey : nextUseIdx requests i c0 = ⊤ := by simp [nextUseIdx, h0]
      simp only [optScanSC, optScanSCGo, h0, optScan, List.foldl_cons]
      rw [show optUpd requests i ((none : Option α), (⊥ : WithBot (WithTop Nat))) c0 =
          (some c0, ((⊤ : WithTop Nat) : WithBot (WithTop Nat))) from by
        rw [optUpd, hkey, if_pos (WithBot.bot_lt_coe _)]]
      rw [optScan_absorb]
    | some m =>
      have hkey : nextUseIdx requests i c0 = ((m + i + 1 : Nat) : WithTop Nat) := by
        simp [nextUseIdx, h0]
      simp only [optScanSC, optScanSCGo, h0, optScan, List.foldl_cons]
      rw [if_pos (by omega : (-1 : Int) < (m : Int))]
      rw [show optUpd requests i ((none : Option α), (⊥ : WithBot (WithTop Nat))) c0 =
          (some c0, (((m + i + 1 : Nat) : WithTop Nat) : WithBot (WithTop Nat))) from by
        rw [optUpd, hkey, if_pos (WithBot.bot_lt_coe _)]]
      rw [optScanSC_go_eq requests i rest c0 m]

theorem optStepSCF_eq_optStepF (requests : List α) (cacheSize i : Nat)
    (cache : List α) (page : α) :
    optStepSCF requests cacheSize i cache page = optStepF requests cacheSize i cache page := by
  simp only [optStepSCF, optStepF, optScanSC_eq]

/-! ## Per-policy step lemmas -/

theorem fifo_step_at (requests : List α) (c i : Nat) (page : α)
    (hpage : requests[i]? = some page) :
    (buildFIFOSteps requests c)[i]? =
      some ((fifoStepF c (fifoStateAt requests c i) page).2) := by
  have h := simGo_getElem (fun _ st page => fifoStepF c st page) requests i 0 ([], [])
  rw [hpage] at h
  simpa [buildFIFOSteps, fifoStateAt] using h

theorem lru_step_at (requests : List α) (c i : Nat) (page : α)
    (hpage : requests[i]? = some page) :
    (buildLRUSteps requests c)[i]? =
      some ((lruStepF c i (lruStateAt requests c i) page).2) := by
  have h := simGo_getElem (lruStepF c) requests i 0 ([], fun _ => none)
  rw [hpage] at h
  simpa [buildLRUSteps, lruStateAt] using h

theorem opt_step_at (requests : List α) (c i : Nat) (page : α)
    (hpage : requests[i]? = some page) :
    (buildOPTSteps requests c)[i]? =
      some ((optStepF requests c i (optStateAt requests c i) page).2) := by
  have h := simGo_getElem (optStepF requests c) requests i 0 []
  rw [hpage] at h
  simpa [buildOPTSteps, optStateAt] using h

theorem fifoStepF_cache_eq (c : Nat) (st : List α × List α) (page : α) :
    (fifoStepF c st page).2.cache = (fifoStepF c st page).1.1 := by
  obtain ⟨cache, cset⟩ := st
  by_cases h1 : page ∈ cset
  · simp [fifoStepF, h1]
  · by_cases h2 : c ≤ cache.length
    · cases cache with
      | nil => simp [fifoStepF, h1, h2]
      | cons e t =>
        have h2' : c ≤ t.length + 1 := by simpa using h2
        simp [fifoStepF, h1, h2']
    · simp [fifoStepF, h1, h2]

theorem lruStepF_cache_eq (c i : Nat) (st : List α × (α → Option Nat)) (page : α) :
    (lruStepF c i st page).2.cache = (lruStepF c i st page).1.1 := by
  obtain ⟨cache, lu⟩ := st
  by_cases h1 : page ∈ cache
  · simp [lruStepF, h1]
  · by_cases h2 : c ≤ cache.length
    · cases cache with
      | nil => simp [lruStepF, h1, h2]
      | cons c0 t =>
        have h2' : c ≤ t.length + 1 := by simpa using h2
        simp [lruStepF, h1, h2']
    · simp [lruStepF, h1, h2]

theorem optStepF_cache_eq (requests : List α) (c i : Nat) (cache : List α) (page : α) :
    (optStepF requests c i cache page).2.cache = (optStepF requests c i cache page).1 := by
  by_cases h1 : page ∈ cache
  · simp [optStepF, h1]
  · by_cases h2 : c ≤ cache.length
    · cases hscan : optScan requests i cache with
      | none => simp [optStepF, h1, h2, hscan]
      | some v => simp [optStepF, h1, h2, hscan]
    · simp [optStepF, h1, h2]

theorem fifoStepF_C1 (c : Nat) (hc : 1 ≤ c) (cache cset : List α) (page : α)
    (hlen : cache.length ≤ c) :
    (fifoStepF c (cache, cset) page).2.cache.length ≤ c ∧
    ((fifoStepF c (cache, cset) page).2.evicted.isSome = true ↔
      ((fifoStepF c (cache, cset) page).2.hit = false ∧ cache.length = c)) := by
  by_cases h1 : page ∈ cset
  · refine ⟨by simpa [fifoStepF, h1] using hlen, ?_⟩
    simp [fifoStepF, h1]
  · by_cases h2 : c ≤ cache.length
    · have hceq : cache.length = c := le_antisymm hlen h2
      cases cache with
      | nil => exfalso; simp at hceq; omega
      | cons e t =>
        have ht : t.length + 1 = c := by simpa using hceq
        have h2' : c ≤ t.length + 1 := by omega
        refine ⟨?_, ?_⟩
        · simp [fifoStepF, h1, h2']
          omega
        · simp [fifoStepF, h1, h2', hceq]
    · have hlt : cache.length < c := lt_of_not_le h2
      refine ⟨?_, ?_⟩
      · simp [fifoStepF, h1, h2]
        omega
      · simp [fifoStepF, h1, h2]
        omega

theorem fifoStateAt_len (requests : List α) (c : Nat) (hc : 1 ≤ c) (i : Nat) :
    (fifoStateAt requests c i).1.length ≤ c := by
  have h := simIter_inv (fun _ st page => fifoStepF c st page) requests
      (fun _ st => st.1.length ≤ c)
      (fun n st page _ hst => by
        have hh := (fifoStepF_C1 c hc st.1 st.2 page hst).1
        rwa [fifoStepF_cache_eq] at hh)
      (fun _ _ _ hst => hst) i 0 ([], []) (by simp)
  simpa [fifoStateAt] using h

theorem lruStepF_C1 (c : Nat) (hc : 1 ≤ c) (i : Nat) (cache : List α)
    (lu : α → Option Nat) (page : α) (hlen : cache.length ≤ c) :
    (lruStepF c i (cache, lu) page).2.cache.length ≤ c ∧
    ((lruStepF c i (cache, lu) page).2.evicted.isSome = true ↔
      ((lruStepF c i (cache, lu) page).2.hit = false ∧ cache.length = c)) := by
  by_cases h1 : page ∈ cache
  · refine ⟨by simpa [lruStepF, h1] using hlen, ?_⟩
    simp [lruStepF, h1]
  · by_cases h2 : c ≤ cache.length
    · have hceq : cache.length = c := le_antisymm hlen h2
      cases cache with
      | nil => exfalso; simp at hceq; omega
      | cons c0 t =>
        have ht : t.length + 1 = c := by simpa using hceq
        have h2' : c ≤ t.length + 1 := by omega
        have hv : lruScan (fun p => if p = page then some i else lu p) (c0 :: t) c0 ∈
            c0 :: t := lruScan_mem _ _ _ (by simp)
        have herase := List.length_erase_of_mem hv
        simp only [List.length_cons] at herase
        refine ⟨?_, ?_⟩
        · simp [lruStepF, h1, h2']
          omega
        · simp [lruStepF, h1, h2', hceq]
    · have hlt : cache.length < c := lt_of_not_le h2
      refine ⟨?_, ?_⟩
      · simp [lruStepF, h1, h2]
        omega
      · simp [lruStepF, h1, h2]
        omega

theorem lruStateAt_len (requests : List α) (c : Nat) (hc : 1 ≤ c) (i : Nat) :
    (lruStateAt requests c i).1.length ≤ c := by
  have h := simIter_inv (lruStepF c) requests
      (fun _ st => st.1.length ≤ c)
      (fun n st page _ hst => by
        have hh := (lruStepF_C1 c hc n st.1 st.2 page hst).1
        rwa [lruStepF_cache_eq] at hh)
      (fun _ _ _ hst => hst) i 0 ([], fun _ => none) (by simp)
  simpa [lruStateAt] using h

theorem optStepF_C1 (requests : List α) (c : Nat) (hc : 1 ≤ c) (i : Nat)
    (cache : List α) (page : α) (hlen : cache.length ≤ c) :
    (optStepF requests c i cache page).2.cache.length ≤ c ∧
    ((optStepF requests c i cache page).2.evicted.isSome = true ↔
      ((optStepF requests c i cache page).2.hit = false ∧ cache.length = c)) := by
  by_cases h1 : page ∈ cache
  · refine ⟨by simpa [optStepF, h1] using hlen, ?_⟩
    simp [optStepF, h1]
  · by_cases h2 : c ≤ cache.length
    · have hceq : cache.length = c := le_antisymm hlen h2
      cases cache with
      | nil => exfalso; simp at hceq; omega
      | cons c0 t =>
        have ht : t.length + 1 = c := by simpa using hceq
        have h2' : c ≤ t.length + 1 := by omega
        obtain ⟨v, pre, post, hscan, hdec, _, _⟩ := optScan_spec requests i c0 t
        have hv : v ∈ c0 :: t := by
          rw [hdec]; exact List.mem_append_right _ (List.mem_cons_self _ _)
        have herase := List.length_erase_of_mem hv
        simp only [List.length_cons] at herase
        refine ⟨?_, ?_⟩
        · simp [optStepF, h1, h2', hscan]
          omega
        · simp [optStepF, h1, h2', hscan, hceq]
    · have hlt : cache.length < c := lt_of_not_le h2
      refine ⟨?_, ?_⟩
      · simp [optStepF, h1, h2]
        omega
      · simp [optStepF, h1, h2]
        omega

theorem optStateAt_len (requests : List α) (c : Nat) (hc : 1 ≤ c) (i : Nat) :
    (optStateAt requests c i).length ≤ c := by
  have h := simIter_inv (optStepF requests c) requests
      (fun _ st => st.length ≤ c)
      (fun n st page _ hst => by
        have hh := (optStepF_C1 requests c hc n st page hst).1
        rwa [optStepF_cache_eq] at hh)
      (fun _ _ _ hst => hst) i 0 [] (by simp)
  simpa [optStateAt] using h

/-! ## The LRU last-used map tracks the most recent prior request index -/

theorem lruStepF_snd (c i : Nat) (st : List α × (α → Option Nat)) (page : α) :
    (lruStepF c i st page).1.2 = fun p => if p = page then some i else st.2 p := by
  obtain ⟨cache, lu⟩ := st
  by_cases h1 : page ∈ cache
  · simp [lruStepF, h1]
  · by_cases h2 : c ≤ cache.length
    · cases cache with
      | nil =>
        have h2' : c ≤ 0 := by simpa using h2
        simp [lruStepF, h1, h2']
      | cons c0 t =>
        have h2' : c ≤ t.length + 1 := by simpa using h2
        simp [lruStepF, h1, h2']
    · simp [lruStepF, h1, h2]

theorem lruStepF_fst_mem (c i : Nat) (st : List α × (α → Option Nat)) (page : α) :
    ∀ p ∈ (lruStepF c i st page).1.1, p ∈ st.1 ∨ p = page := by
  obtain ⟨cache, lu⟩ := st
  by_cases h1 : page ∈ cache
  · intro p hp
    simp only [lruStepF] at hp
    rw [if_pos h1] at hp
    exact Or.inl hp
  · by_cases h2 : c ≤ cache.length
    · cases cache with
      | nil =>
        have h2' : c ≤ 0 := by simpa using h2
        intro p hp
        simp [lruStepF, h1, h2'] at hp
        exact Or.inr hp
      | cons c0 t =>
        have h2' : c ≤ t.length + 1 := by simpa using h2
        intro p hp
        simp [lruStepF, h1, h2'] at hp
        rcases hp with hp | hp
        · exact Or.inl (List.mem_of_mem_erase hp)
        · exact Or.inr hp
    · intro p hp
      simp [lruStepF, h1, h2] at hp
      rcases hp with hp | hp
      · exact Or.inl hp
      · exact Or.inr hp

theorem lastUseBefore_succ_of_get (requests : List α) (n : Nat) (page : α)
    (hpage : requests[n]? = some page) (p : α) :
    lastUseBefore requests (n + 1) p =
      if p = page then some n else lastUseBefore requests n p := by
  by_cases hp : p = page
  · subst hp
    simp [lastUseBefore, hpage]
  · have hne : ¬(requests[n]? = some p) := by
      rw [hpage]
      simp [Option.some.injEq]
      intro h
      exact hp h.symm
    simp [lastUseBefore, hne, hp]

theorem lastUseBefore_succ_of_none (requests : List α) (n : Nat) (p : α)
    (hnone : requests[n]? = none) :
    lastUseBefore requests (n + 1) p = lastUseBefore requests n p := by
  simp [lastUseBefore, hnone]

theorem lastUseBefore_isSome_succ (requests : List α) (n : Nat) (p : α)
    (h : (lastUseBefore requests n p).isSome = true) :
    (lastUseBefore requests (n + 1) p).isSome = true := by
  by_cases hc : requests[n]? = some p
  · simp [lastUseBefore, hc]
  · simp [lastUseBefore, hc]
    exact h

theorem lru_invariant (requests : List α) (c : Nat) (i : Nat) :
    (∀ p, (lruStateAt requests c i).2 p = lastUseBefore requests i p) ∧
    (∀ p ∈ (lruStateAt requests c i).1, (lastUseBefore requests i p).isSome = true) := by
  have h := simIter_inv (lruStepF c) requests
      (fun n st => (∀ p, st.2 p = lastUseBefore requests n p) ∧
        (∀ p ∈ st.1, (lastUseBefore requests n p).isSome = true))
      (fun n st page hpage hP => by
        constructor
        · intro p
          rw [lruStepF_snd, lastUseBefore_succ_of_get requests n page hpage p]
          by_cases hp : p = page
          · simp [hp]
          · simp [hp, hP.1 p]
        · intro p hp
          rcases lruStepF_fst_mem c n st page p hp with h | h
          · exact lastUseBefore_isSome_succ _ _ _ (hP.2 p h)
          · rw [h, lastUseBefore_succ_of_get requests n page hpage page]
            simp)
      (fun n st hnone hP => by
        constructor
        · intro p
          rw [lastUseBefore_succ_of_none requests n p hnone]
          exact hP.1 p
        · intro p hp
          rw [lastUseBefore_succ_of_none requests n p hnone]
          exact hP.2 p hp)
      i 0 ([], fun _ => none) ⟨fun p => rfl, by simp⟩
  simpa [lruStateAt] using h

theorem fifoStepF_hit (c : Nat) (st : List α × List α) (page : α) :
    (fifoStepF c st page).2.hit = true ↔ page ∈ st.2 := by
  obtain ⟨cache, cset⟩ := st
  by_cases h1 : page ∈ cset
  · simp [fifoStepF, h1]
  · by_cases h2 : c ≤ cache.length
    · cases cache with
      | nil =>
        have h2' : c ≤ 0 := by simpa using h2
        simp [fifoStepF, h1, h2']
      | cons e t =>
        have h2' : c ≤ t.length + 1 := by simpa using h2
        simp [fifoStepF, h1, h2']
    · simp [fifoStepF, h1, h2]

theorem fifoStepF_current (c : Nat) (st : List α × List α) (page : α) :
    (fifoStepF c st page).2.current = page := by
  obtain ⟨cache, cset⟩ := st
  by_cases h1 : page ∈ cset
  · simp [fifoStepF, h1]
  · by_cases h2 : c ≤ cache.length
    · cases cache with
      | nil =>
        have h2' : c ≤ 0 := by simpa using h2
        simp [fifoStepF, h1, h2']
      | cons e t =>
        have h2' : c ≤ t.length + 1 := by simpa using h2
        simp [fifoStepF, h1, h2']
    · simp [fifoStepF, h1, h2]

theorem lruStepF_current (c i : Nat) (st : List α × (α → Option Nat)) (page : α) :
    (lruStepF c i st page).2.current = page := by
  obtain ⟨cache, lu⟩ := st
  by_cases h1 : page ∈ cache
  · simp [lruStepF, h1]
  · by_cases h2 : c ≤ cache.length
    · cases cache with
      | nil =>
        have h2' : c ≤ 0 := by simpa using h2
        simp [lruStepF, h1, h2']
      | cons c0 t =>
        have h2' : c ≤ t.length + 1 := by simpa using h2
        simp [lruStepF, h1, h2']
    · simp [lruStepF, h1, h2]

theorem optStepF_current (requests : List α) (c i : Nat) (cache : List α) (page : α) :
    (optStepF requests c i cache page).2.current = page := by
  by_cases h1 : page ∈ cache
  · simp [optStepF, h1]
  · by_cases h2 : c ≤ cache.length
    · cases hscan : optScan requests i cache with
      | none => simp [optStepF, h1, h2, hscan]
      | some v => simp [optStepF, h1, h2, hscan]
    · simp [optStepF, h1, h2]

omit [DecidableEq α] in
theorem simGo_congr (step1 step2 : Nat → σ → α → σ × SimulationStep α)
    (h : ∀ n st page, step1 n st page = step2 n st page) :
    ∀ (rem : List α) (n : Nat) (st : σ), simGo step1 rem n st = simGo step2 rem n st := by
  intro rem
  induction rem with
  | nil => intro n st; rfl
  | cons page rest ih =>
    intro n st
    simp only [simGo, h n st page, ih]

theorem buildSteps_length (policy : Policy) (requests : List α) (cacheSize : Nat) :
    (buildSteps policy requests cacheSize).length = requests.length := by
  cases policy <;>
    simp [buildSteps, buildFIFOSteps, buildLRUSteps, buildOPTSteps, simGo_length]

/-! ## Claim theorems -/

/-- C1: for every reference sequence, every capacity of at least 1 and every
policy among FIFO, LRU and OPT, every step of the produced trace has a
resident set of length at most the capacity, and its evicted field is
non-null exactly when the step is a miss taken while the resident count
before the insertion already equalled the capacity. -/
theorem C1_trace_invariant (policy : Policy) (requests : List α) (cacheSize : Nat)
    (hcap : 1 ≤ cacheSize) (i : Nat) (step : SimulationStep α)
    (hstep : (buildSteps policy requests cacheSize)[i]? = some step) :
    step.cache.length ≤ cacheSize ∧
    (step.evicted.isSome = true ↔
      (step.hit = false ∧ (cacheAt policy requests cacheSize i).length = cacheSize)) := by
  have hi : i < requests.length := by
    by_contra hge
    have hnone : (buildSteps policy requests cacheSize)[i]? = none := by
      apply List.getElem?_eq_none
      rw [buildSteps_length]
      omega
    rw [hnone] at hstep
    exact Option.noConfusion hstep
  obtain ⟨page, hpage⟩ : ∃ page, requests[i]? = some page :=
    ⟨requests[i], List.getElem?_eq_getElem hi⟩
  cases policy with
  | FIFO =>
    rw [show buildSteps Policy.FIFO requests cacheSize = buildFIFOSteps requests cacheSize
        from rfl, fifo_step_at requests cacheSize i page hpage] at hstep
    injection hstep with hstep
    rw [← hstep]
    have h := fifoStepF_C1 cacheSize hcap (fifoStateAt requests cacheSize i).1
      (fifoStateAt requests cacheSize i).2 page (fifoStateAt_len requests cacheSize hcap i)
    simpa [cacheAt] using h
  | LRU =>
    rw [show buildSteps Policy.LRU requests cacheSize = buildLRUSteps requests cacheSize
        from rfl, lru_step_at requests cacheSize i page hpage] at hstep
    injection hstep with hstep
    rw [← hstep]
    have h := lruStepF_C1 cacheSize hcap i (lruStateAt requests cacheSize i).1
      (lruStateAt requests cacheSize i).2 page (lruStateAt_len requests cacheSize hcap i)
    simpa [cacheAt] using h
  | OPT =>
    rw [show buildSteps Policy.OPT requests cacheSize = buildOPTSteps requests cacheSize
        from rfl, opt_step_at requests cacheSize i page hpage] at hstep
    injection hstep with hstep
    rw [← hstep]
    have h := optStepF_C1 requests cacheSize hcap i (optStateAt requests cacheSize i)
      page (optStateAt_len requests cacheSize hcap i)
    simpa [cacheAt] using h

/-- C1 witness: the FIFO trace of the sequence 0,1 at capacity 1; its second
step is a miss taken at full capacity and satisfies the invariant. -/
theorem C1_witness :
    (⟨[1], 1, false, some 0⟩ : SimulationStep Nat).cache.length ≤ 1 ∧
    ((⟨[1], 1, false, some 0⟩ : SimulationStep Nat).evicted.isSome = true ↔
      ((⟨[1], 1, false, some 0⟩ : SimulationStep Nat).hit = false ∧
        (cacheAt Policy.FIFO [0, 1] 1 1).length = 1)) :=
  C1_trace_invariant Policy.FIFO [0, 1] 1 (by decide) 1 _ (by decide)

/-- C2: in the OPT builder, at every miss taken while the resident count
equals the capacity, the evicted page is, among the resident pages in
residency order, the first one whose absolute next-use index (the index of
its next occurrence strictly after position i, or the top element when it
never occurs again) reaches the maximum: every earlier resident has a
strictly smaller index and every later resident has an index at most as
large. -/
theorem C2_opt_eviction (requests : List α) (cacheSize : Nat) (hcap : 1 ≤ cacheSize)
    (i : Nat) (page : α) (step : SimulationStep α)
    (hpage : requests[i]? = some page)
    (hstep : (buildOPTSteps requests cacheSize)[i]? = some step)
    (hmiss : step.hit = false)
    (hfull : (optStateAt requests cacheSize i).length = cacheSize) :
    ∃ v pre post, step.evicted = some v ∧
      optStateAt requests cacheSize i = pre ++ v :: post ∧
      (∀ p ∈ pre, nextUseIdx requests i p < nextUseIdx requests i v) ∧
      (∀ p ∈ post, nextUseIdx requests i p ≤ nextUseIdx requests i v) := by
  rw [opt_step_at requests cacheSize i page hpage] at hstep
  injection hstep with hstep
  rcases hc : optStateAt requests cacheSize i with _ | ⟨c0, t⟩
  · rw [hc] at hfull
    simp at hfull
    omega
  · rw [hc] at hstep hfull
    have h1 : page ∉ (c0 :: t) := by
      intro hmem
      rw [← hstep] at hmiss
      simp [optStepF, hmem] at hmiss
    have h2' : cacheSize ≤ t.length + 1 := by
      simp at hfull
      omega
    obtain ⟨v, pre, post, hscan, hdec, hpre, hpost⟩ := optScan_spec requests i c0 t
    refine ⟨v, pre, post, ?_, hdec, hpre, hpost⟩
    rw [← hstep]
    simp [optStepF, h1, h2', hscan]

/-- C2 witness: sequence 0,1,2,0 at capacity 2; at position 2 page 2 misses
while the cache holds 0 and 1, and 1 (never used again, next-use index top)
is evicted rather than 0 (next used at position 3). -/
theorem C2_witness :
    ∃ v pre post, (⟨[0, 2], 2, false, some 1⟩ : SimulationStep Nat).evicted = some v ∧
      optStateAt [0, 1, 2, 0] 2 2 = pre ++ v :: post ∧
      (∀ p ∈ pre, nextUseIdx [0, 1, 2, 0] 2 p < nextUseIdx [0, 1, 2, 0] 2 v) ∧
      (∀ p ∈ post, nextUseIdx [0, 1, 2, 0] 2 p ≤ nextUseIdx [0, 1, 2, 0] 2 v) :=
  C2_opt_eviction [0, 1, 2, 0] 2 (by decide) 2 2 _ (by decide) (by decide) (by decide)
    (by decide)

/-- C3: in the LRU builder, at every miss taken while the resident count
equals the capacity, the evicted page is, among the resident pages in
residency order, the first one whose most recent prior request index
(the current position excluded) is smallest: every earlier resident has a
strictly larger index and every later resident has an index at least as
large. -/
theorem C3_lru_eviction (requests : List α) (cacheSize : Nat) (hcap : 1 ≤ cacheSize)
    (i : Nat) (page : α) (step : SimulationStep α)
    (hpage : requests[i]? = some page)
    (hstep : (buildLRUSteps requests cacheSize)[i]? = some step)
    (hmiss : step.hit = false)
    (hfull : (lruStateAt requests cacheSize i).1.length = cacheSize) :
    ∃ v pre post kv, step.evicted = some v ∧
      (lruStateAt requests cacheSize i).1 = pre ++ v :: post ∧
      lastUseBefore requests i v = some kv ∧
      (∀ p ∈ pre, ∀ n, lastUseBefore requests i p = some n → kv < n) ∧
      (∀ p ∈ post, ∀ n, lastUseBefore requests i p = some n → kv ≤ n) := by
  rw [lru_step_at requests cacheSize i page hpage] at hstep
  injection hstep with hstep
  obtain ⟨hmap, hmem⟩ := lru_invariant requests cacheSize i
  rcases hc : (lruStateAt requests cacheSize i).1 with _ | ⟨c0, t⟩
  · rw [hc] at hfull
    simp at hfull
    omega
  · rw [hc] at hfull
    rw [hc] at hmem
    have h1 : page ∉ (c0 :: t) := by
      intro hmemp
      rw [← hstep] at hmiss
      simp [lruStepF, hc, hmemp] at hmiss
    have hfeq : ∀ p ∈ c0 :: t,
        (if p = page then some i else (lruStateAt requests cacheSize i).2 p) =
          lastUseBefore requests i p := by
      intro p hp
      have hne : p ≠ page := fun h => h1 (h ▸ hp)
      rw [if_neg hne]
      exact hmap p
    have hall : ∀ p ∈ c0 :: t,
        (if p = page then some i else (lruStateAt requests cacheSize i).2 p).isSome
          = true := by
      intro p hp
      rw [hfeq p hp]
      exact hmem p hp
    obtain ⟨pre, post, kv, hdec, hfv, hpre, hpost⟩ :=
      lruScan_spec (fun p => if p = page then some i else (lruStateAt requests cacheSize i).2 p)
        c0 t hall
    have h2' : cacheSize ≤ t.length + 1 := by
      simp at hfull
      omega
    have hvmem :
        lruScan (fun p => if p = page then some i else (lruStateAt requests cacheSize i).2 p)
          (c0 :: t) c0 ∈ c0 :: t :=
      lruScan_mem _ _ _ (by simp)
    refine ⟨lruScan
        (fun p => if p = page then some i else (lruStateAt requests cacheSize i).2 p)
        (c0 :: t) c0, pre, post, kv, ?_, hdec, ?_, ?_, ?_⟩
    · rw [← hstep]
      simp [lruStepF, hc, h1, h2']
    · rw [← hfeq _ hvmem]
      exact hfv
    · intro p hp n hn
      have hpmem : p ∈ c0 :: t := by
        rw [hdec]
        exact List.mem_append_left _ hp
      exact hpre p hp n (by rw [hfeq p hpmem]; exact hn)
    · intro p hp n hn
      have hpmem : p ∈ c0 :: t := by
        rw [hdec]
        exact List.mem_append_right _ (List.mem_cons_of_mem _ hp)
      exact hpost p hp n (by rw [hfeq p hpmem]; exact hn)

/-- C3 witness: sequence 0,1,2 at capacity 2; at position 2 page 2 misses
while the cache holds 0 and 1, and 0 (last used at position 0) is evicted
rather than 1 (last used at position 1). -/
theorem C3_witness :
    ∃ v pre post kv, (⟨[1, 2], 2, false, some 0⟩ : SimulationStep Nat).evicted = some v ∧
      (lruStateAt [0, 1, 2] 2 2).1 = pre ++ v :: post ∧
      lastUseBefore [0, 1, 2] 2 v = some kv ∧
      (∀ p ∈ pre, ∀ n, lastUseBefore [0, 1, 2] 2 p = some n → kv < n) ∧
      (∀ p ∈ post, ∀ n, lastUseBefore [0, 1, 2] 2 p = some n → kv ≤ n) :=
  C3_lru_eviction [0, 1, 2] 2 (by decide) 2 2 _ (by decide) (by decide) (by decide)
    (by decide)

/-- C4: in the FIFO builder, a hit leaves the residency queue, the
membership set and the recorded snapshot unchanged and records no eviction,
while a miss taken when the resident count has reached the capacity evicts
the head of the queue, records it as evicted, and appends the requested
page at the tail. -/
theorem C4_fifo_behavior (requests : List α) (cacheSize : Nat) (hcap : 1 ≤ cacheSize)
    (i : Nat) (page : α) (step : SimulationStep α)
    (hpage : requests[i]? = some page)
    (hstep : (buildFIFOSteps requests cacheSize)[i]? = some step) :
    (step.hit = true →
      fifoStateAt requests cacheSize (i + 1) = fifoStateAt requests cacheSize i ∧
      step.cache = (fifoStateAt requests cacheSize i).1 ∧ step.evicted = none) ∧
    (step.hit = false → cacheSize ≤ (fifoStateAt requests cacheSize i).1.length →
      ∃ e t, (fifoStateAt requests cacheSize i).1 = e :: t ∧
        step.evicted = some e ∧ step.cache = t ++ [page] ∧
        (fifoStateAt requests cacheSize (i + 1)).1 = t ++ [page]) := by
  rw [fifo_step_at requests cacheSize i page hpage] at hstep
  injection hstep with hstep
  have hsucc : fifoStateAt requests cacheSize (i + 1) =
      (fifoStepF cacheSize (fifoStateAt requests cacheSize i) page).1 := by
    unfold fifoStateAt
    rw [simIter_succ]
    rw [hpage]
  rcases hfs : fifoStateAt requests cacheSize i with ⟨cache, cset⟩
  rw [hfs] at hstep hsucc
  constructor
  · intro hhit
    have h1 : page ∈ cset := by
      have hh := (fifoStepF_hit cacheSize (cache, cset) page).mp (by rw [hstep, hhit])
      exact hh
    refine ⟨?_, ?_, ?_⟩
    · rw [hsucc]
      simp [fifoStepF, h1]
    · rw [← hstep]
      simp [fifoStepF, h1]
    · rw [← hstep]
      simp [fifoStepF, h1]
  · intro hmiss hfull
    have h1 : page ∉ cset := by
      intro hmem
      have hh := (fifoStepF_hit cacheSize (cache, cset) page).mpr hmem
      rw [hstep, hmiss] at hh
      exact Bool.noConfusion hh
    cases cache with
    | nil =>
      exfalso
      simp at hfull
      omega
    | cons e t =>
      have h2' : cacheSize ≤ t.length + 1 := by simpa using hfull
      refine ⟨e, t, rfl, ?_, ?_, ?_⟩
      · rw [← hstep]
        simp [fifoStepF, h1, h2']
      · rw [← hstep]
        simp [fifoStepF, h1, h2']
      · rw [hsucc]
        simp [fifoStepF, h1, h2']

/-- C4 witness: sequence 0,1 at capacity 1; position 1 is a miss at full
capacity, page 0 (the queue head) is evicted and 1 is appended. -/
theorem C4_witness :
    ∃ e t, (fifoStateAt ([0, 1] : List Nat) 1 1).1 = e :: t ∧
      (⟨[1], 1, false, some 0⟩ : SimulationStep Nat).evicted = some e ∧
      (⟨[1], 1, false, some 0⟩ : SimulationStep Nat).cache = t ++ [1] ∧
      (fifoStateAt ([0, 1] : List Nat) 1 2).1 = t ++ [1] :=
  (C4_fifo_behavior [0, 1] 1 (by decide) 1 1 _ (by decide) (by decide)).2
    (by decide) (by decide)

/-- C5: for every reference sequence, every capacity of at least 1 and each
policy, the produced trace has the same length as the reference sequence,
and the step at each position records exactly the page requested at that
position, in order. -/
theorem C5_trace_length (policy : Policy) (requests : List α) (cacheSize : Nat)
    (hcap : 1 ≤ cacheSize) :
    (buildSteps policy requests cacheSize).length = requests.length ∧
    ∀ i : Nat,
      Option.map SimulationStep.current ((buildSteps policy requests cacheSize)[i]?) =
        requests[i]? := by
  refine ⟨buildSteps_length policy requests cacheSize, ?_⟩
  intro i
  cases hpage : requests[i]? with
  | none =>
    have hlen : requests.length ≤ i := by
      by_contra hlt
      rw [List.getElem?_eq_getElem (by omega)] at hpage
      exact Option.noConfusion hpage
    have : (buildSteps policy requests cacheSize)[i]? = none := by
      apply List.getElem?_eq_none
      rw [buildSteps_length]
      omega
    rw [this]
    rfl
  | some page =>
    cases policy with
    | FIFO =>
      rw [show buildSteps Policy.FIFO requests cacheSize = buildFIFOSteps requests cacheSize
          from rfl, fifo_step_at requests cacheSize i page hpage]
      simp [fifoStepF_current]
    | LRU =>
      rw [show buildSteps Policy.LRU requests cacheSize = buildLRUSteps requests cacheSize
          from rfl, lru_step_at requests cacheSize i page hpage]
      simp [lruStepF_current]
    | OPT =>
      rw [show buildSteps Policy.OPT requests cacheSize = buildOPTSteps requests cacheSize
          from rfl, opt_step_at requests cacheSize i page hpage]
      simp [optStepF_current]

/-- C5 witness: the LRU trace of the sequence 0,1,0 at capacity 2 has three
steps and the step at each position requests that position of the
sequence. -/
theorem C5_witness :
    (buildSteps Policy.LRU ([0, 1, 0] : List Nat) 2).length = ([0, 1, 0] : List Nat).length ∧
    ∀ i : Nat,
      Option.map SimulationStep.current ((buildSteps Policy.LRU ([0, 1, 0] : List Nat) 2)[i]?) =
        ([0, 1, 0] : List Nat)[i]? :=
  C5_trace_length Policy.LRU [0, 1, 0] 2 (by decide)

/-- C6 counterexample: the Reset handler only sets the cursor to 0.  Invoked
while playing (isPlaying = true, cursor 1), the resulting state still has
isPlaying = true: auto-advance is not stopped and the state is not the
Ready state (cursor 0, not advancing) that the claim requires. -/
theorem C6_counterexample :
    onReset (⟨[0, 1], [⟨[0], 0, false, none⟩, ⟨[1], 1, false, some 0⟩], 1, true⟩ :
        ControllerState Nat) =
      ⟨[0, 1], [⟨[0], 0, false, none⟩, ⟨[1], 1, false, some 0⟩], 0, true⟩ ∧
    (onReset (⟨[0, 1], [⟨[0], 0, false, none⟩, ⟨[1], 1, false, some 0⟩], 1, true⟩ :
        ControllerState Nat)).isPlaying = true := by
  constructor
  · rfl
  · rfl

/-- C6 amended: the Reset handler, invoked from any playback state, returns
the cursor to 0 and regenerates nothing (the trace and reference sequence
are unchanged), but it does not stop auto-advance: the playing flag is left
exactly as it was. -/
theorem C6_reset_behavior (s : ControllerState α) :
    (onReset s).currentStep = 0 ∧ (onReset s).steps = s.steps ∧
    (onReset s).requests = s.requests ∧ (onReset s).isPlaying = s.isPlaying :=
  ⟨rfl, rfl, rfl, rfl⟩

/-- C7: with a nonempty trace, the Step handler advances the cursor by
exactly one when the cursor is short of the last index, is a complete
no-op (cursor and all other state unchanged) at the last index, and,
iterated any number of times from cursor 0, yields cursor min k (length-1):
it reaches the last index after length-1 applications, stays there, and
never faults. -/
theorem C7_step_behavior (s : ControllerState α) (hne : s.steps ≠ []) :
    (s.currentStep < (s.steps.length : Int) - 1 →
      onStep s = { s with currentStep := s.currentStep + 1 }) ∧
    (s.currentStep = (s.steps.length : Int) - 1 → onStep s = s) ∧
    (s.currentStep = 0 →
      ∀ k : Nat, (onStep^[k]) s =
        { s with currentStep := min (k : Int) ((s.steps.length : Int) - 1) }) := by
  have hL : 1 ≤ (s.steps.length : Int) := by
    have : s.steps.length ≠ 0 := by
      intro h
      exact hne (List.length_eq_zero.mp h)
    omega
  refine ⟨?_, ?_, ?_⟩
  · intro hlt
    have hmin : min (s.currentStep + 1) ((s.steps.length : Int) - 1) =
        s.currentStep + 1 := by omega
    rw [onStep, hmin]
  · intro heq
    have hmin : min (s.currentStep + 1) ((s.steps.length : Int) - 1) =
        s.currentStep := by omega
    rw [onStep, hmin]
  · intro h0 k
    induction k with
    | zero =>
      have hmin : min ((0 : Nat) : Int) ((s.steps.length : Int) - 1) = 0 := by
        simp only [Nat.cast_zero]
        omega
      rw [Function.iterate_zero_apply, hmin, ← h0]
    | succ k ih =>
      rw [Function.iterate_succ_apply', ih]
      simp only [onStep]
      congr 1
      simp only [Nat.cast_succ]
      omega

/-- C7 witness: with a two-step trace and the cursor at the last index 1,
the Step handler leaves the whole state unchanged. -/
theorem C7_witness :
    onStep (⟨[0, 1], [⟨[0], 0, false, none⟩, ⟨[1], 1, false, some 0⟩], 1, false⟩ :
        ControllerState Nat) =
      ⟨[0, 1], [⟨[0], 0, false, none⟩, ⟨[1], 1, false, some 0⟩], 1, false⟩ :=
  (C7_step_behavior
    (⟨[0, 1], [⟨[0], 0, false, none⟩, ⟨[1], 1, false, some 0⟩], 1, false⟩ :
      ControllerState Nat) (by decide)).2.1 (by decide)

/-- C8 counterexample: with the invalid capacity 0, the FIFO builder
reports nothing: it silently returns a trace of the same length as the
sequence whose single step keeps one resident page, exceeding the capacity
bound (1 > 0), with no eviction recorded and no error value anywhere. -/
theorem C8_counterexample :
    buildSteps Policy.FIFO ([0] : List Nat) 0 = [⟨[0], 0, false, none⟩] ∧
    (⟨[0], 0, false, none⟩ : SimulationStep Nat).cache.length = 1 ∧ 0 < 1 := by
  refine ⟨?_, rfl, Nat.zero_lt_one⟩
  rfl

/-- C8 amended: the builders perform no input validation and signal
nothing.  On invalid inputs they still silently produce a trace: with
capacity 0 the trace has one step per request (which can violate the
resident-bound invariant), and with an empty sequence the trace is empty. -/
theorem C8_invalid_inputs (policy : Policy) (requests : List α) (cacheSize : Nat) :
    (buildSteps policy requests 0).length = requests.length ∧
    buildSteps policy ([] : List α) cacheSize = [] := by
  refine ⟨buildSteps_length policy requests 0, ?_⟩
  cases policy <;> rfl

/-- C9: the trace builders are pure functions of the policy, the reference
sequence and the capacity: two calls with equal inputs yield traces equal
step for step and field for field. -/
theorem C9_deterministic (policy : Policy) (r1 r2 : List α) (c1 c2 : Nat)
    (hr : r1 = r2) (hc : c1 = c2) :
    buildSteps policy r1 c1 = buildSteps policy r2 c2 := by
  rw [hr, hc]

/-- C9 witness: two OPT calls on the sequence 0,1,2,0 at capacity 2 agree. -/
theorem C9_witness :
    buildSteps Policy.OPT ([0, 1, 2, 0] : List Nat) 2 =
      buildSteps Policy.OPT ([0, 1, 2, 0] : List Nat) 2 :=
  C9_deterministic Policy.OPT [0, 1, 2, 0] [0, 1, 2, 0] 2 2 rfl rfl

/-- C10: for every reference sequence and every capacity of at least 1, the
short-circuit draft of the OPT builder (which breaks the scan at the first
resident page with no future occurrence and compares relative next-use
indices) produces exactly the same trace as the full-scan builder. -/
theorem C10_opt_variants_agree (requests : List α) (cacheSize : Nat)
    (hcap : 1 ≤ cacheSize) :
    buildOPTStepsSC requests cacheSize = buildOPTSteps requests cacheSize := by
  simp only [buildOPTStepsSC, buildOPTSteps]
  exact simGo_congr _ _
    (fun n st page => optStepSCF_eq_optStepF requests cacheSize n st page)
    requests 0 []

/-- C10 witness: the two OPT builders agree on the sequence 0,1,2,0,1 at
capacity 2, which exercises both a never-used-again eviction and a
farthest-future eviction. -/
theorem C10_witness :
    buildOPTStepsSC ([0, 1, 2, 0, 1] : List Nat) 2 =
      buildOPTSteps ([0, 1, 2, 0, 1] : List Nat) 2 :=
  C10_opt_variants_agree [0, 1, 2, 0, 1] 2 (by decide)

end PageSim
